import Mathlib

/-!
Verification of the text-stream windowing subsystem of the repository
(src/src/text-stream-buffer.ts and src/src/ring-buffer.ts).

The TypeScript classes are shallowly embedded as Lean structures with
explicit state passing:
  - strings become List Char;
  - the implicit global PRNG becomes an explicit jitter argument
    (a list of drawn integer offsets, one per chunk position, standing
    for the values of Math.floor(Math.random() * shuffle_radius * 2)
    - shuffle_radius drawn by the code);
  - JS Array.prototype.sort with a numeric key comparator is a stable
    sort, modelled by List.insertionSort with the non-strict key order
    (Mathlib's insertionSort with such a relation is stable);
  - class methods become functions from the state to the new state
    (plus the returned value where the method returns one).

All definitions follow the second TextStreamBuffer version in the source
file (the one with a configurable chunkSize, lines 108-222), which is the
version the claims cite, together with SpiralSlotRing (lines 226-274) and
RingBuffer (src/src/ring-buffer.ts).
-/

namespace ThreadSpec

/-- CharSlot record (text-stream-buffer.ts lines 108-112): one committed
character's display record. The index is an Int because the blank
sentinel slot uses index -1. -/
structure CharSlot where
  index : Int
  char : Char
  readableDelta : Int
deriving DecidableEq, Repr

/-- Blank sentinel slot, SpiralSlotRing.createBlankSlot (lines 271-273). -/
def createBlankSlot : CharSlot := { char := ' ', readableDelta := 0, index := -1 }

/-- Characters matched by the JS regexp class Backslash-s (the whitespace
class used in sanitizeText): tab, LF, VT, FF, CR, space, NBSP, the
Unicode space separators, line/paragraph separators, and the BOM. -/
def isJsWhitespace (c : Char) : Bool :=
  let n := c.toNat
  decide (n = 9 ∨ n = 10 ∨ n = 11 ∨ n = 12 ∨ n = 13 ∨ n = 32 ∨
    n = 0xA0 ∨ n = 0x1680 ∨ (0x2000 ≤ n ∧ n ≤ 0x200A) ∨
    n = 0x2028 ∨ n = 0x2029 ∨ n = 0x202F ∨ n = 0x205F ∨ n = 0x3000 ∨ n = 0xFEFF)

/-- Characters kept by the second replace in sanitizeText (line 175):
the class [a-zA-Z0-9 ]. -/
def isAllowedChar (c : Char) : Bool :=
  let n := c.toNat
  decide ((97 ≤ n ∧ n ≤ 122) ∨ (65 ≤ n ∧ n ≤ 90) ∨ (48 ≤ n ∧ n ≤ 57) ∨ n = 32)

/-- Replacement of every maximal whitespace run by a single space: the
effect of value.replace over the global whitespace-run regexp in
sanitizeText (line 175). The Bool argument records whether the previous
character belonged to a whitespace run. -/
def collapseWs : List Char → Bool → List Char
  | [], _ => []
  | c :: rest, prevWs =>
    if isJsWhitespace c then
      if prevWs then collapseWs rest true
      else ' ' :: collapseWs rest true
    else c :: collapseWs rest false

/-- TextStreamBuffer.sanitizeText (lines 174-176): collapse whitespace
runs to one space, strip everything outside [a-zA-Z0-9 ], uppercase.
Char.toUpper is the per-character effect of String.prototype.toUpperCase
on the post-filter alphabet (ASCII letters, digits and space). -/
def sanitizeText (value : List Char) : List Char :=
  (((collapseWs value false).filter isAllowedChar).map Char.toUpper)

/-- Intermediate record built inside append (lines 196-201): a character
with its natural position and its drawn jitter key. -/
structure ShuffleEntry where
  char : Char
  index : Nat
  shuffled : Int
deriving DecidableEq, Repr

/-- Key order used by the first sort in append (line 203): compare the
jitter keys. -/
def ShuffleEntry.keyLe (a b : ShuffleEntry) : Prop := a.shuffled ≤ b.shuffled

instance : DecidableRel ShuffleEntry.keyLe := fun a b =>
  inferInstanceAs (Decidable (a.shuffled ≤ b.shuffled))

instance : IsTotal ShuffleEntry ShuffleEntry.keyLe :=
  ⟨fun a b => Int.le_total a.shuffled b.shuffled⟩

instance : IsTrans ShuffleEntry ShuffleEntry.keyLe :=
  ⟨fun _ _ _ hab hbc => le_trans hab hbc⟩

/-- Key order used by the second sort in append (line 213): compare the
natural indices. -/
def CharSlot.indexLe (a b : CharSlot) : Prop := a.index ≤ b.index

instance : DecidableRel CharSlot.indexLe := fun a b =>
  inferInstanceAs (Decidable (a.index ≤ b.index))

instance : IsTotal CharSlot CharSlot.indexLe :=
  ⟨fun a b => Int.le_total a.index b.index⟩

instance : IsTrans CharSlot CharSlot.indexLe :=
  ⟨fun _ _ _ hab hbc => le_trans hab hbc⟩

/-- Lines 195-201 of append: attach to each character of the chunk its
natural position and its jitter key index + d, where d is the drawn
offset for that position (ds lists the drawn offsets). -/
def shuffleKeyed (chunk : List Char) (ds : List Int) : List ShuffleEntry :=
  chunk.enum.map fun pc =>
    { char := pc.2, index := pc.1, shuffled := (pc.1 : Int) + ds.getD pc.1 0 }

/-- Lines 205-211 of append: after the stable sort by jitter key, the
record ranked q (for the character whose natural position is e.index)
receives readableDelta = q - e.index. -/
def slotsOf (sorted : List ShuffleEntry) : List CharSlot :=
  sorted.enum.map fun qe =>
    { index := (qe.2.index : Int), char := qe.2.char,
      readableDelta := (qe.1 : Int) - (qe.2.index : Int) }

/-- Shuffle-commit of one chunk, lines 195-213 of append: key the
characters, stable-sort by key, compute the readableDelta of each rank,
then re-sort into natural index order. -/
def commitChunk (chunk : List Char) (ds : List Int) : List CharSlot :=
  ((slotsOf ((shuffleKeyed chunk ds).insertionSort ShuffleEntry.keyLe)).insertionSort
    CharSlot.indexLe)

/-- TextStreamBuffer state (lines 114-124). uniqueChars is a JS Set kept
in insertion order, modelled as a duplicate-free list seeded with the
space character. -/
structure TextStreamBuffer where
  chunkSize : Nat
  shuffle_radius : Nat
  pending : List Char
  uniqueChars : List Char
  processed : List CharSlot
  startAt : Nat
  state : Nat
deriving DecidableEq, Repr

/-- Set.prototype.add for the uniqueChars set: append the character only
when it is not yet present. -/
def addUnique (l : List Char) (c : Char) : List Char :=
  if c ∈ l then l else l ++ [c]

/-- The for-of loop of append lines 183-185: add every sanitized
character to uniqueChars. -/
def addAllUnique (l : List Char) (cs : List Char) : List Char :=
  cs.foldl addUnique l

/-- Compaction step shared by shift and advance (lines 138-142 and
153-157): drop the consumed prefix and reset the cursor. The slice call
at line 139 (and 154) discards its result and is dead code. -/
def compactStep (s : TextStreamBuffer) : TextStreamBuffer :=
  { s with processed := s.processed.drop s.startAt, startAt := 0 }

/-- Compaction trigger: compact exactly when the cursor exceeds
chunkSize. -/
def compactIfNeeded (s : TextStreamBuffer) : TextStreamBuffer :=
  if s.chunkSize < s.startAt then compactStep s else s

/-- TextStreamBuffer.advance (lines 132-144). -/
def TextStreamBuffer.advance (s : TextStreamBuffer) (available : Nat) : TextStreamBuffer :=
  if s.startAt < s.processed.length then
    compactIfNeeded { s with startAt := s.startAt + available, state := s.state + 1 }
  else s

/-- TextStreamBuffer.shift (lines 147-162). The JS guard
startAt < processed.length - 1 over JS numbers is startAt + 1 < length
over naturals. Returns the popped slot (or none) with the new state. -/
def TextStreamBuffer.shift (s : TextStreamBuffer) : Option CharSlot × TextStreamBuffer :=
  if s.startAt + 1 < s.processed.length then
    (some (s.processed.getD s.startAt createBlankSlot),
     compactIfNeeded { s with startAt := s.startAt + 1, state := s.state + 1 })
  else (none, s)

/-- Getter text (lines 165-167): the unconsumed characters joined. -/
def TextStreamBuffer.text (s : TextStreamBuffer) : List Char :=
  (s.processed.drop s.startAt).map (fun slot => slot.char)

/-- Getter length (lines 169-171): processed.length - startAt over JS
numbers, which can be negative, hence Int. -/
def TextStreamBuffer.length (s : TextStreamBuffer) : Int :=
  (s.processed.length : Int) - (s.startAt : Int)

/-- One committed sub-chunk of the commit loop (lines 192-216): the i-th
slice of pending, with the jitter draws it consumes from the stream of
draws (rand k is the k-th value drawn by Math.random during this append,
already scaled to an integer offset in the jitter range). -/
def commitRange (pending : List Char) (chunkSize : Nat) (rand : Nat → Int) (i : Nat) :
    List CharSlot :=
  commitChunk ((pending.drop (i * chunkSize)).take chunkSize)
    ((List.range chunkSize).map fun p => rand (i * chunkSize + p))

/-- TextStreamBuffer.append (lines 179-221). -/
def TextStreamBuffer.append (s : TextStreamBuffer) (chunk : List Char) (force : Bool)
    (rand : Nat → Int) : TextStreamBuffer :=
  let sanitized := sanitizeText chunk
  if sanitized = [] then s
  else
    let s1 : TextStreamBuffer :=
      { s with uniqueChars := addAllUnique s.uniqueChars sanitized,
               pending := s.pending ++ sanitized }
    if s.chunkSize ≤ s1.pending.length ∨ force = true then
      let chunks := s1.pending.length / s.chunkSize
      { s1 with
        processed := s1.processed ++ (List.range chunks).flatMap (commitRange s1.pending s.chunkSize rand),
        pending := s1.pending.drop (chunks * s.chunkSize),
        state := s1.state + 1 }
    else s1

/-- Constructor (lines 127-130): fields start at their declared defaults,
chunkSize is stored, and the initial text is appended with force. -/
def mkTextStreamBuffer (initialText : List Char) (chunkSize : Nat) (rand : Nat → Int) :
    TextStreamBuffer :=
  TextStreamBuffer.append
    { chunkSize := chunkSize, shuffle_radius := 15, pending := [],
      uniqueChars := [' '], processed := [], startAt := 0, state := 0 }
    initialText true rand

/-- RingBuffer (src/src/ring-buffer.ts), instantiated at CharSlot as
SpiralSlotRing uses it: fixed backing list and a sliding logical
origin. -/
structure RingBuffer where
  buffer : List CharSlot
  start : Nat
deriving DecidableEq, Repr

/-- Getter size: the backing length. -/
def RingBuffer.size (r : RingBuffer) : Nat := r.buffer.length

/-- RingBuffer.get: read relative to the origin, modulo size. -/
def RingBuffer.get (r : RingBuffer) (index : Nat) : CharSlot :=
  r.buffer.getD ((r.start + index) % r.buffer.length) createBlankSlot

/-- Write loop shared by RingBuffer.push and RingBuffer.set: write the
items at consecutive positions modulo the backing length. -/
def writeItems (buf : List CharSlot) (pos : Nat) : List CharSlot → List CharSlot
  | [] => buf
  | x :: xs => writeItems (buf.set (pos % buf.length) x) (pos + 1) xs

/-- RingBuffer.set: write items starting at origin + index, wrapping. -/
def RingBuffer.setAt (r : RingBuffer) (index : Nat) (items : List CharSlot) : RingBuffer :=
  { r with buffer := writeItems r.buffer (r.start + index) items }

/-- RingBuffer.shift: read the element at the origin and advance the
origin by one, modulo size. -/
def RingBuffer.shift (r : RingBuffer) : CharSlot × RingBuffer :=
  (r.buffer.getD r.start createBlankSlot,
   { r with start := (r.start + 1) % r.buffer.length })

/-- SpiralSlotRing.syncFromTextBuffer (lines 241-269): available is
max(0, processed.length - startAt) (Nat subtraction truncates at 0
exactly like the Math.max call); build the fill list by the three cases,
bulk-write it at origin offset 0, then advance the source buffer by
min(available, size). Returns the new ring and the new buffer. -/
def syncFromTextBuffer (r : RingBuffer) (tb : TextStreamBuffer) :
    RingBuffer × TextStreamBuffer :=
  let slots := tb.processed
  let startAt := tb.startAt
  let available := slots.length - startAt
  let fill : List CharSlot :=
    if available = 0 then List.replicate r.size createBlankSlot
    else if available < r.size then
      List.replicate (r.size - available) createBlankSlot ++
        ((slots.drop startAt).take available)
    else (slots.drop startAt).take r.size
  (r.setAt 0 fill, tb.advance (min available r.size))

/-- Jitter stream in which every draw is zero (a possible outcome of the
PRNG scaling for any positive shuffle radius): the shuffle becomes the
identity permutation, convenient for concrete executions. -/
def zeroRand : Nat → Int := fun _ => 0

/-!  General lemmas about the sanitizer. -/

/-- Characters in the image of the sanitizer: kept by the filter and
fixed by the uppercasing. -/
def cleanChar (c : Char) : Prop :=
  isAllowedChar c = true ∧ Char.toUpper c = c

lemma cleanChar_toUpper {c : Char} (h : isAllowedChar c = true) :
    cleanChar (Char.toUpper c) := by
  by_cases hl : 97 ≤ c.toNat ∧ c.toNat ≤ 122
  · obtain ⟨h1, h2⟩ := hl
    have hup : Char.toUpper c = Char.ofNat (c.toNat - 32) := by
      unfold Char.toUpper
      rw [if_pos ⟨h1, h2⟩]
    rw [hup]
    generalize c.toNat = n at h1 h2
    interval_cases n <;> exact ⟨by decide, by decide⟩
  · have hup : Char.toUpper c = c := by
      unfold Char.toUpper
      rw [if_neg hl]
    rw [hup]
    exact ⟨h, by unfold Char.toUpper; rw [if_neg hl]⟩

lemma mem_collapseWs : ∀ {l : List Char} {b : Bool} {c : Char},
    c ∈ collapseWs l b → c = ' ' ∨ c ∈ l
  | [], b, c => by simp [collapseWs]
  | a :: rest, b, c => by
    unfold collapseWs
    split
    · split
      · intro h
        rcases mem_collapseWs h with h | h
        · exact Or.inl h
        · exact Or.inr (List.mem_cons_of_mem _ h)
      · intro h
        rcases List.mem_cons.mp h with h | h
        · exact Or.inl h
        · rcases mem_collapseWs h with h | h
          · exact Or.inl h
          · exact Or.inr (List.mem_cons_of_mem _ h)
    · intro h
      rcases List.mem_cons.mp h with h | h
      · exact Or.inr (h ▸ List.mem_cons_self _ _)
      · rcases mem_collapseWs h with h | h
        · exact Or.inl h
        · exact Or.inr (List.mem_cons_of_mem _ h)

lemma collapseWs_cons (c : Char) (rest : List Char) (b : Bool) :
    collapseWs (c :: rest) b =
      if isJsWhitespace c then
        (if b then collapseWs rest true else ' ' :: collapseWs rest true)
      else c :: collapseWs rest false := rfl

lemma collapseWs_collapseWs : ∀ (l : List Char) (b : Bool),
    collapseWs (collapseWs l b) b = collapseWs l b
  | [], _ => rfl
  | a :: rest, b => by
    by_cases hw : isJsWhitespace a = true
    · cases b with
      | true =>
        rw [collapseWs_cons, if_pos hw, if_pos rfl]
        exact collapseWs_collapseWs rest true
      | false =>
        rw [collapseWs_cons, if_pos hw, if_neg (by simp)]
        rw [collapseWs_cons, if_pos (by decide), if_neg (by simp)]
        rw [collapseWs_collapseWs rest true]
    · rw [collapseWs_cons, if_neg hw]
      rw [collapseWs_cons, if_neg hw]
      rw [collapseWs_collapseWs rest false]

lemma map_toUpper_fixed {l : List Char} (h : ∀ c ∈ l, Char.toUpper c = c) :
    l.map Char.toUpper = l :=
  (List.map_congr_left h).trans (List.map_id l)

lemma clean_mem_sanitizeText {x : List Char} : ∀ c ∈ sanitizeText x, cleanChar c := by
  intro c hc
  unfold sanitizeText at hc
  rcases List.mem_map.mp hc with ⟨a, ha, rfl⟩
  exact cleanChar_toUpper (List.of_mem_filter ha)

lemma sanitizeText_of_clean {y : List Char} (hy : ∀ c ∈ y, cleanChar c) :
    sanitizeText y = collapseWs y false := by
  have hall : ∀ c ∈ collapseWs y false, cleanChar c := by
    intro c hc
    rcases mem_collapseWs hc with h | h
    · exact h ▸ ⟨by decide, by decide⟩
    · exact hy c h
  unfold sanitizeText
  rw [List.filter_eq_self.mpr (fun c hc => (hall c hc).1),
    map_toUpper_fixed (fun c hc => (hall c hc).2)]

lemma collapseWs_all_ws : ∀ {l : List Char}, (∀ c ∈ l, isJsWhitespace c = true) →
    collapseWs l true = []
  | [], _ => rfl
  | a :: rest, h => by
    unfold collapseWs
    rw [if_pos (h a (List.mem_cons_self _ _)), if_pos rfl]
    exact collapseWs_all_ws (fun c hc => h c (List.mem_cons_of_mem _ hc))

/-!  General lemmas about the state machine. -/

lemma compactIfNeeded_state (t : TextStreamBuffer) :
    (compactIfNeeded t).state = t.state := by
  unfold compactIfNeeded compactStep
  split <;> rfl

lemma compactIfNeeded_chunkSize (t : TextStreamBuffer) :
    (compactIfNeeded t).chunkSize = t.chunkSize := by
  unfold compactIfNeeded compactStep
  split <;> rfl

lemma commitChunk_length (chunk : List Char) (ds : List Int) :
    (commitChunk chunk ds).length = chunk.length := by
  unfold commitChunk slotsOf shuffleKeyed
  simp [List.length_insertionSort, List.enum_length]

lemma commitRange_length {p : List Char} {cs : Nat} (rand : Nat → Int) {i : Nat}
    (hi : i < p.length / cs) : (commitRange p cs rand i).length = cs := by
  unfold commitRange
  rw [commitChunk_length, List.length_take, List.length_drop]
  have h1 : (i + 1) * cs ≤ p.length / cs * cs :=
    Nat.mul_le_mul_right cs hi
  have h2 : p.length / cs * cs ≤ p.length := Nat.div_mul_le_self _ _
  have h3 : (i + 1) * cs = i * cs + cs := by ring
  omega

lemma flatMap_commitRange_length {p : List Char} {cs : Nat} (rand : Nat → Int) :
    ∀ {n : Nat}, n ≤ p.length / cs →
      ((List.range n).flatMap (commitRange p cs rand)).length = n * cs := by
  intro n
  induction n with
  | zero => intro _; simp
  | succ m ih =>
    intro h
    rw [List.range_succ, List.flatMap_append, List.length_append,
      ih (Nat.le_of_succ_le h)]
    simp only [List.flatMap_cons, List.flatMap_nil, List.append_nil]
    rw [commitRange_length rand (Nat.lt_of_succ_le h)]
    ring

lemma append_state_eq (s : TextStreamBuffer) (chunk : List Char) (force : Bool)
    (rand : Nat → Int) :
    (s.append chunk force rand).state =
      if sanitizeText chunk ≠ [] ∧
          (s.chunkSize ≤ (s.pending ++ sanitizeText chunk).length ∨ force = true)
        then s.state + 1 else s.state := by
  unfold TextStreamBuffer.append
  by_cases hS : sanitizeText chunk = []
  · simp [hS]
  · by_cases hC : s.chunkSize ≤ s.pending.length + (sanitizeText chunk).length ∨ force = true
    · simp [hS, hC, List.length_append]
    · simp [hS, hC, List.length_append]

lemma append_force_eq (s : TextStreamBuffer) (chunk : List Char) (rand : Nat → Int)
    (hS : sanitizeText chunk ≠ []) :
    s.append chunk true rand =
      { s with
        uniqueChars := addAllUnique s.uniqueChars (sanitizeText chunk),
        pending := (s.pending ++ sanitizeText chunk).drop
          ((s.pending ++ sanitizeText chunk).length / s.chunkSize * s.chunkSize),
        processed := s.processed ++
          (List.range ((s.pending ++ sanitizeText chunk).length / s.chunkSize)).flatMap
            (commitRange (s.pending ++ sanitizeText chunk) s.chunkSize rand),
        state := s.state + 1 } := by
  unfold TextStreamBuffer.append
  simp [hS, Nat.mul_comm]

lemma compactStep_text (t : TextStreamBuffer) : (compactStep t).text = t.text := by
  unfold compactStep TextStreamBuffer.text
  simp

lemma compactStep_length {t : TextStreamBuffer} (h : t.startAt ≤ t.processed.length) :
    (compactStep t).length = t.length := by
  unfold compactStep TextStreamBuffer.length
  simp [Nat.cast_sub h]

/-!  Claim C1. -/

/-- Claim C1, counterexample: on a fresh buffer with chunkSize 8, a
single append of the text the-space-quick with force true (here at the
all-zero jitter outcome) leaves the sub-chunkSize tail in pending: the
committed characters are THE-space-QUIC (8 of them, not 9) and pending
still holds the character K, so a forced call does not drain pending. -/
theorem append_force_leaves_short_tail_cex :
    (mkTextStreamBuffer ("the quick".toList) 8 zeroRand).pending = ['K'] ∧
    (mkTextStreamBuffer ("the quick".toList) 8 zeroRand).pending ≠ [] ∧
    (mkTextStreamBuffer ("the quick".toList) 8 zeroRand).processed.length = 8 ∧
    (mkTextStreamBuffer ("the quick".toList) 8 zeroRand).processed.length ≠ 9 := by
  refine ⟨by decide, by decide, by decide, by decide⟩

/-- Claim C1, amended: append(chunk, force := true) with a non-empty
sanitized input commits only the floor(pending.length / chunkSize) full
chunks of exactly chunkSize characters each; the remainder of length
pending.length mod chunkSize stays in pending, so a forced call drains
pending fully only when pending.length is a multiple of chunkSize. In
the concrete scenario (chunkSize 8, appending the-space-quick with
force, zero jitter) the committed characters read THE-space-QUIC and
pending holds the single character K. -/
theorem append_force_commits_full_chunks :
    (∀ (s : TextStreamBuffer) (chunk : List Char) (rand : Nat → Int),
      sanitizeText chunk ≠ [] →
      (s.append chunk true rand).pending =
          (s.pending ++ sanitizeText chunk).drop
            ((s.pending ++ sanitizeText chunk).length / s.chunkSize * s.chunkSize)
        ∧ (s.append chunk true rand).processed.length =
            s.processed.length +
              ((s.pending ++ sanitizeText chunk).length / s.chunkSize) * s.chunkSize
        ∧ (s.append chunk true rand).pending.length =
            (s.pending ++ sanitizeText chunk).length % s.chunkSize)
  ∧ (mkTextStreamBuffer ("the quick".toList) 8 zeroRand).processed.map
        (fun sl => sl.char) = "THE QUIC".toList
  ∧ (mkTextStreamBuffer ("the quick".toList) 8 zeroRand).pending = ['K'] := by
  refine ⟨?_, by decide, by decide⟩
  intro s chunk rand hS
  rw [append_force_eq s chunk rand hS]
  refine ⟨rfl, ?_, ?_⟩
  · rw [List.length_append, flatMap_commitRange_length rand (Nat.le_refl _)]
  · simp only [List.length_drop]
    have h1 := Nat.div_add_mod (s.pending ++ sanitizeText chunk).length s.chunkSize
    have h2 : (s.pending ++ sanitizeText chunk).length / s.chunkSize * s.chunkSize ≤
        (s.pending ++ sanitizeText chunk).length := Nat.div_mul_le_self _ _
    have h3 : s.chunkSize * ((s.pending ++ sanitizeText chunk).length / s.chunkSize)
        = (s.pending ++ sanitizeText chunk).length / s.chunkSize * s.chunkSize :=
      Nat.mul_comm _ _
    omega

/-- Claim C1, witness for the amended theorem at a concrete input. -/
theorem append_force_commits_full_chunks_w :
    (TextStreamBuffer.append (mkTextStreamBuffer [] 8 zeroRand) ("the quick".toList)
      true zeroRand).processed.length = 8 := by
  have h := append_force_commits_full_chunks.1 (mkTextStreamBuffer [] 8 zeroRand)
    ("the quick".toList) zeroRand (by decide)
  exact h.2.1.trans (by decide)

/-!  Claim C3. -/

/-- Claim C3: shift pops processed[startAt] (moving the cursor up by one
and then applying the compaction trigger, as the spec describes) exactly
when startAt is less than processed.length - 1; otherwise, and in
particular when the cursor sits on the last committed slot, it returns
null and changes nothing. -/
theorem shift_pop_and_guard (s : TextStreamBuffer) :
    (s.startAt + 1 < s.processed.length →
      (TextStreamBuffer.shift s).1 = some (s.processed.getD s.startAt createBlankSlot) ∧
      (TextStreamBuffer.shift s).2 =
        compactIfNeeded { s with startAt := s.startAt + 1, state := s.state + 1 })
  ∧ (¬ s.startAt + 1 < s.processed.length →
      (TextStreamBuffer.shift s).1 = none ∧ (TextStreamBuffer.shift s).2 = s)
  ∧ (s.processed ≠ [] → s.startAt = s.processed.length - 1 →
      (TextStreamBuffer.shift s).1 = none ∧ (TextStreamBuffer.shift s).2 = s) := by
  refine ⟨?_, ?_, ?_⟩
  · intro h
    unfold TextStreamBuffer.shift
    rw [if_pos h]
    exact ⟨rfl, rfl⟩
  · intro h
    unfold TextStreamBuffer.shift
    rw [if_neg h]
    exact ⟨rfl, rfl⟩
  · intro hne hlast
    have hlen : 0 < s.processed.length := List.length_pos.mpr hne
    have h : ¬ s.startAt + 1 < s.processed.length := by omega
    unfold TextStreamBuffer.shift
    rw [if_neg h]
    exact ⟨rfl, rfl⟩

/-- Claim C3, witness: on a fresh 8-slot buffer the first shift pops the
first slot. -/
theorem shift_pop_and_guard_w :
    (TextStreamBuffer.shift (mkTextStreamBuffer ("ABCDEFGH".toList) 4 zeroRand)).1
      = some { index := 0, char := 'A', readableDelta := 0 } := by
  have h := (shift_pop_and_guard (mkTextStreamBuffer ("ABCDEFGH".toList) 4 zeroRand)).1
    (by decide)
  exact h.1.trans (by decide)

/-!  Claim C4. -/

/-- Claim C4, counterexample: sanitization is not idempotent. On the
input a-space-dot-space-b the first pass yields A-space-space-B (the
stripped dot makes the two spaces adjacent) and the second pass
collapses them, so the two results differ. -/
theorem sanitizeText_not_idempotent_cex :
    sanitizeText (sanitizeText ("a . b".toList)) ≠ sanitizeText ("a . b".toList) ∧
    sanitizeText ("a . b".toList) = "A  B".toList ∧
    sanitizeText (sanitizeText ("a . b".toList)) = "A B".toList := by
  refine ⟨by decide, by decide, by decide⟩

/-- Claim C4, amended: sanitization is idempotent from the second
application on; applying sanitizeText twice is an idempotent operation
even though a single application is not. -/
theorem sanitizeText_eventually_idempotent (x : List Char) :
    sanitizeText (sanitizeText (sanitizeText x)) = sanitizeText (sanitizeText x) := by
  have h1 : ∀ c ∈ sanitizeText x, cleanChar c := clean_mem_sanitizeText
  have e2 : sanitizeText (sanitizeText x) = collapseWs (sanitizeText x) false :=
    sanitizeText_of_clean h1
  have h2 : ∀ c ∈ collapseWs (sanitizeText x) false, cleanChar c := by
    intro c hc
    rcases mem_collapseWs hc with h | h
    · exact h ▸ ⟨by decide, by decide⟩
    · exact h1 c h
  rw [e2, sanitizeText_of_clean h2, collapseWs_collapseWs]

/-!  Claim C6. -/

/-- Claim C6, counterexample: a whitespace-only chunk is not a no-op.
Appending a single space to a fresh chunkSize-8 buffer changes pending
from empty to a single space, because the sanitized form of a
whitespace-only chunk is one space, which is a non-empty (truthy)
string. -/
theorem append_whitespace_chunk_not_noop_cex :
    ([' '] : List Char).all isJsWhitespace = true ∧
    (mkTextStreamBuffer [] 8 zeroRand).pending = [] ∧
    ((mkTextStreamBuffer [] 8 zeroRand).append [' '] false zeroRand).pending = [' '] := by
  refine ⟨by decide, by decide, by decide⟩

/-- Claim C6, amended: append is a silent full no-op exactly on the
chunks whose sanitized form is empty (the empty chunk and chunks with
neither alphanumeric nor whitespace characters); a non-empty
whitespace-only chunk instead sanitizes to a single space and is
appended to pending. -/
theorem append_noop_iff_sanitized_empty :
    (∀ (s : TextStreamBuffer) (chunk : List Char) (force : Bool) (rand : Nat → Int),
      sanitizeText chunk = [] → s.append chunk force rand = s)
  ∧ (∀ chunk : List Char, chunk ≠ [] → (∀ c ∈ chunk, isJsWhitespace c = true) →
      sanitizeText chunk = [' ']) := by
  constructor
  · intro s chunk force rand h
    unfold TextStreamBuffer.append
    simp [h]
  · intro chunk hne hws
    cases chunk with
    | nil => exact absurd rfl hne
    | cons a rest =>
      unfold sanitizeText
      rw [collapseWs_cons, if_pos (hws a (List.mem_cons_self _ _)), if_neg (by simp)]
      rw [collapseWs_all_ws (fun c hc => hws c (List.mem_cons_of_mem _ hc))]
      decide

/-- Claim C6, witness: a dots-only chunk sanitizes to the empty string
and its append leaves the buffer untouched; and the single-space chunk
sanitizes to a single space. -/
theorem append_noop_iff_sanitized_empty_w :
    (mkTextStreamBuffer [] 8 zeroRand).append ("...".toList) false zeroRand
        = mkTextStreamBuffer [] 8 zeroRand
    ∧ sanitizeText [' '] = [' '] :=
  ⟨append_noop_iff_sanitized_empty.1 _ _ _ _ (by decide),
   append_noop_iff_sanitized_empty.2 [' '] (by decide) (by decide)⟩

/-!  Claim C7. -/

/-- Claim C7, counterexample: an append whose sanitized input is
non-empty but which only accumulates into pending (no commit: below the
threshold and not forced) does not change the state counter. -/
theorem append_accumulate_keeps_state_cex :
    sanitizeText ['a'] ≠ [] ∧
    ((mkTextStreamBuffer [] 8 zeroRand).append ['a'] false zeroRand).state
      = (mkTextStreamBuffer [] 8 zeroRand).state ∧
    ((mkTextStreamBuffer [] 8 zeroRand).append ['a'] false zeroRand).pending = ['A'] := by
  refine ⟨by decide, by decide, by decide⟩

/-- Claim C7, amended: no operation ever decreases the state counter,
and append increments it (by exactly one) precisely when its sanitized
input is non-empty and the commit branch runs, that is when the grown
pending reaches chunkSize or force is set; an accumulate-only append
leaves state unchanged. -/
theorem state_monotone_and_bump_condition :
    (∀ (s : TextStreamBuffer) (chunk : List Char) (force : Bool) (rand : Nat → Int),
      s.state ≤ (s.append chunk force rand).state)
  ∧ (∀ s : TextStreamBuffer, s.state ≤ (TextStreamBuffer.shift s).2.state)
  ∧ (∀ (s : TextStreamBuffer) (n : Nat), s.state ≤ (s.advance n).state)
  ∧ (∀ (s : TextStreamBuffer) (chunk : List Char) (force : Bool) (rand : Nat → Int),
      (s.append chunk force rand).state =
        if sanitizeText chunk ≠ [] ∧
            (s.chunkSize ≤ (s.pending ++ sanitizeText chunk).length ∨ force = true)
          then s.state + 1 else s.state) := by
  refine ⟨?_, ?_, ?_, append_state_eq⟩
  · intro s chunk force rand
    rw [append_state_eq]
    split <;> omega
  · intro s
    unfold TextStreamBuffer.shift
    split
    · simp [compactIfNeeded_state]
    · exact Nat.le_refl _
  · intro s n
    unfold TextStreamBuffer.advance
    split
    · rw [compactIfNeeded_state]
      exact Nat.le_succ _
    · exact Nat.le_refl _

/-!  Claim C8. -/

/-- Claim C8, counterexample: an advance(10) on a fresh 4-slot buffer
with chunkSize 4 triggers compaction (the moved cursor 10 exceeds
chunkSize 4), and across that compaction step the length getter jumps
from -6 to 0, so length is not preserved when the cursor has overshot
processed.length. -/
theorem compaction_length_change_cex :
    (mkTextStreamBuffer ("ABCD".toList) 4 zeroRand).startAt
        < (mkTextStreamBuffer ("ABCD".toList) 4 zeroRand).processed.length
  ∧ (mkTextStreamBuffer ("ABCD".toList) 4 zeroRand).chunkSize
        < (mkTextStreamBuffer ("ABCD".toList) 4 zeroRand).startAt + 10
  ∧ TextStreamBuffer.advance (mkTextStreamBuffer ("ABCD".toList) 4 zeroRand) 10
        = compactStep { mkTextStreamBuffer ("ABCD".toList) 4 zeroRand with
            startAt := (mkTextStreamBuffer ("ABCD".toList) 4 zeroRand).startAt + 10,
            state := (mkTextStreamBuffer ("ABCD".toList) 4 zeroRand).state + 1 }
  ∧ TextStreamBuffer.length { mkTextStreamBuffer ("ABCD".toList) 4 zeroRand with
        startAt := (mkTextStreamBuffer ("ABCD".toList) 4 zeroRand).startAt + 10,
        state := (mkTextStreamBuffer ("ABCD".toList) 4 zeroRand).state + 1 } = -6
  ∧ TextStreamBuffer.length (compactStep { mkTextStreamBuffer ("ABCD".toList) 4 zeroRand with
        startAt := (mkTextStreamBuffer ("ABCD".toList) 4 zeroRand).startAt + 10,
        state := (mkTextStreamBuffer ("ABCD".toList) 4 zeroRand).state + 1 }) = 0 := by
  refine ⟨by decide, by decide, by decide, by decide, by decide⟩

/-- Claim C8, amended: the compaction step always preserves text,
pending, uniqueChars and state, and it preserves length whenever the
cursor has not overshot processed.length; in particular both text and
length are preserved across every shift-triggered compaction, and
across every advance(n)-triggered compaction with n at most the current
length. Length is not preserved when an advance overshoots. -/
theorem compaction_transparency :
    (∀ t : TextStreamBuffer, (compactStep t).text = t.text
      ∧ (compactStep t).pending = t.pending
      ∧ (compactStep t).uniqueChars = t.uniqueChars
      ∧ (compactStep t).state = t.state)
  ∧ (∀ t : TextStreamBuffer, t.startAt ≤ t.processed.length →
      (compactStep t).length = t.length)
  ∧ (∀ s : TextStreamBuffer, s.startAt + 1 < s.processed.length →
      (compactStep { s with startAt := s.startAt + 1, state := s.state + 1 }).text
          = TextStreamBuffer.text { s with startAt := s.startAt + 1, state := s.state + 1 }
        ∧ (compactStep { s with startAt := s.startAt + 1, state := s.state + 1 }).length
          = TextStreamBuffer.length { s with startAt := s.startAt + 1, state := s.state + 1 })
  ∧ (∀ (s : TextStreamBuffer) (n : Nat), (n : Int) ≤ s.length →
      (compactStep { s with startAt := s.startAt + n, state := s.state + 1 }).text
          = TextStreamBuffer.text { s with startAt := s.startAt + n, state := s.state + 1 }
        ∧ (compactStep { s with startAt := s.startAt + n, state := s.state + 1 }).length
          = TextStreamBuffer.length { s with startAt := s.startAt + n, state := s.state + 1 }) := by
  refine ⟨?_, ?_, ?_, ?_⟩
  · intro t
    exact ⟨compactStep_text t, rfl, rfl, rfl⟩
  · intro t h
    exact compactStep_length h
  · intro s h
    refine ⟨compactStep_text _, compactStep_length ?_⟩
    simp only []
    omega
  · intro s n h
    refine ⟨compactStep_text _, compactStep_length ?_⟩
    unfold TextStreamBuffer.length at h
    simp only []
    omega

/-- Claim C8, witness: a concrete halfway-consumed buffer whose
compaction preserves length. -/
theorem compaction_transparency_w :
    (compactStep { mkTextStreamBuffer ("ABCD".toList) 4 zeroRand with startAt := 2 }).length
      = TextStreamBuffer.length
          { mkTextStreamBuffer ("ABCD".toList) 4 zeroRand with startAt := 2 } :=
  compaction_transparency.2.1 _ (by decide)

/-!  Claim C5. -/

/-- States reachable from a constructor call through the public
operations append, shift and advance, with arbitrary non-negative
advance amounts (the claim's notion of reachability). -/
inductive ReachableAny : TextStreamBuffer → Prop where
  | init (initialText : List Char) (chunkSize : Nat) (rand : Nat → Int) :
      ReachableAny (mkTextStreamBuffer initialText chunkSize rand)
  | appendStep {s : TextStreamBuffer} (chunk : List Char) (force : Bool)
      (rand : Nat → Int) : ReachableAny s → ReachableAny (s.append chunk force rand)
  | shiftStep {s : TextStreamBuffer} :
      ReachableAny s → ReachableAny (TextStreamBuffer.shift s).2
  | advanceStep {s : TextStreamBuffer} (n : Nat) :
      ReachableAny s → ReachableAny (s.advance n)

/-- States reachable when every advance amount is at most the length
still available, which is how SpiralSlotRing.syncFromTextBuffer calls
advance. -/
inductive ReachableBounded : TextStreamBuffer → Prop where
  | init (initialText : List Char) (chunkSize : Nat) (rand : Nat → Int) :
      ReachableBounded (mkTextStreamBuffer initialText chunkSize rand)
  | appendStep {s : TextStreamBuffer} (chunk : List Char) (force : Bool)
      (rand : Nat → Int) : ReachableBounded s → ReachableBounded (s.append chunk force rand)
  | shiftStep {s : TextStreamBuffer} :
      ReachableBounded s → ReachableBounded (TextStreamBuffer.shift s).2
  | advanceStep {s : TextStreamBuffer} (n : Nat) (h : (n : Int) ≤ s.length) :
      ReachableBounded s → ReachableBounded (s.advance n)

lemma append_startAt_eq (s : TextStreamBuffer) (chunk : List Char) (force : Bool)
    (rand : Nat → Int) : (s.append chunk force rand).startAt = s.startAt := by
  unfold TextStreamBuffer.append
  by_cases hS : sanitizeText chunk = []
  · simp [hS]
  · by_cases hC : s.chunkSize ≤ s.pending.length + (sanitizeText chunk).length ∨ force = true
    · simp [hS, hC, List.length_append]
    · simp [hS, hC, List.length_append]

lemma append_processed_length_le (s : TextStreamBuffer) (chunk : List Char) (force : Bool)
    (rand : Nat → Int) : s.processed.length ≤ (s.append chunk force rand).processed.length := by
  unfold TextStreamBuffer.append
  by_cases hS : sanitizeText chunk = []
  · simp [hS]
  · by_cases hC : s.chunkSize ≤ s.pending.length + (sanitizeText chunk).length ∨ force = true
    · simp [hS, hC, List.length_append]
    · simp [hS, hC, List.length_append]

lemma inv_compactIfNeeded {t : TextStreamBuffer} (h : t.startAt ≤ t.processed.length) :
    (compactIfNeeded t).startAt ≤ (compactIfNeeded t).processed.length := by
  unfold compactIfNeeded compactStep
  split
  · exact Nat.zero_le _
  · exact h

lemma inv_append {s : TextStreamBuffer} (chunk : List Char) (force : Bool)
    (rand : Nat → Int) (h : s.startAt ≤ s.processed.length) :
    (s.append chunk force rand).startAt ≤ (s.append chunk force rand).processed.length := by
  rw [append_startAt_eq]
  exact le_trans h (append_processed_length_le s chunk force rand)

lemma inv_shift {s : TextStreamBuffer} (h : s.startAt ≤ s.processed.length) :
    (TextStreamBuffer.shift s).2.startAt ≤ (TextStreamBuffer.shift s).2.processed.length := by
  unfold TextStreamBuffer.shift
  split
  · rename_i hg
    exact inv_compactIfNeeded (by simp only []; omega)
  · exact h

lemma inv_advance {s : TextStreamBuffer} (n : Nat) (hn : (n : Int) ≤ s.length)
    (h : s.startAt ≤ s.processed.length) :
    (s.advance n).startAt ≤ (s.advance n).processed.length := by
  unfold TextStreamBuffer.advance
  split
  · refine inv_compactIfNeeded ?_
    unfold TextStreamBuffer.length at hn
    simp only []
    omega
  · exact h

/-- Claim C5, counterexample: a concrete sequence of public operations
(construct an 8-slot buffer with chunkSize 4, shift five times - the
fifth shift compacts, leaving 3 slots - then advance(4)) reaches a state
with startAt = 4 greater than processed.length = 3, so length = -1 and
the claimed invariant 0 <= startAt <= processed.length fails. -/
theorem cursor_overshoot_cex :
    ReachableAny ((((((((mkTextStreamBuffer ("ABCDEFGH".toList) 4
        zeroRand).shift).2.shift).2.shift).2.shift).2.shift).2).advance 4)
  ∧ ((((((((mkTextStreamBuffer ("ABCDEFGH".toList) 4
        zeroRand).shift).2.shift).2.shift).2.shift).2.shift).2).advance 4).processed.length
      < ((((((((mkTextStreamBuffer ("ABCDEFGH".toList) 4
        zeroRand).shift).2.shift).2.shift).2.shift).2.shift).2).advance 4).startAt
  ∧ TextStreamBuffer.length ((((((((mkTextStreamBuffer ("ABCDEFGH".toList) 4
        zeroRand).shift).2.shift).2.shift).2.shift).2.shift).2).advance 4) = -1 := by
  refine ⟨?_, by decide, by decide⟩
  exact ReachableAny.advanceStep 4 (ReachableAny.shiftStep (ReachableAny.shiftStep
    (ReachableAny.shiftStep (ReachableAny.shiftStep (ReachableAny.shiftStep
      (ReachableAny.init _ _ _))))))

/-- Claim C5, amended: the invariant 0 <= startAt <= processed.length
(equivalently length >= 0) holds in every state reachable through
append, shift, and advance calls whose amount is at most the currently
available length (as SpiralSlotRing issues them); an advance whose
amount exceeds the available length can push startAt beyond
processed.length. -/
theorem cursor_in_range_of_bounded_advances (s : TextStreamBuffer)
    (h : ReachableBounded s) : s.startAt ≤ s.processed.length := by
  induction h with
  | init initialText chunkSize rand =>
    exact inv_append _ _ _ (Nat.le_refl 0)
  | appendStep chunk force rand _ ih => exact inv_append _ _ _ ih
  | shiftStep _ ih => exact inv_shift ih
  | advanceStep n hn _ ih => exact inv_advance n hn ih

/-- Claim C5, witness: the invariant at a concrete freshly constructed
buffer. -/
theorem cursor_in_range_of_bounded_advances_w :
    (mkTextStreamBuffer ("AB".toList) 8 zeroRand).startAt
      ≤ (mkTextStreamBuffer ("AB".toList) 8 zeroRand).processed.length :=
  cursor_in_range_of_bounded_advances _ (ReachableBounded.init _ _ _)

/-!  Claim C2. -/

lemma slotsOf_map_displaced (l : List ShuffleEntry) :
    (slotsOf l).map (fun sl => sl.index + sl.readableDelta)
      = (List.range l.length).map Int.ofNat := by
  unfold slotsOf
  rw [List.map_map]
  have h1 : ((fun sl : CharSlot => sl.index + sl.readableDelta) ∘
      fun qe : Nat × ShuffleEntry =>
        ({ index := (qe.2.index : Int), char := qe.2.char,
           readableDelta := (qe.1 : Int) - (qe.2.index : Int) } : CharSlot))
      = fun qe : Nat × ShuffleEntry => (qe.1 : Int) := by
    funext qe
    simp only [Function.comp_apply]
    ring
  rw [h1]
  have h2 : (fun qe : Nat × ShuffleEntry => (qe.1 : Int))
      = Int.ofNat ∘ Prod.fst := rfl
  rw [h2, ← List.map_map, List.enum_map_fst]

lemma slotsOf_map_index (l : List ShuffleEntry) :
    (slotsOf l).map (fun sl => sl.index) = l.map (fun e => (e.index : Int)) := by
  unfold slotsOf
  rw [List.map_map]
  have h1 : ((fun sl : CharSlot => sl.index) ∘
      fun qe : Nat × ShuffleEntry =>
        ({ index := (qe.2.index : Int), char := qe.2.char,
           readableDelta := (qe.1 : Int) - (qe.2.index : Int) } : CharSlot))
      = (fun e : ShuffleEntry => (e.index : Int)) ∘ Prod.snd := rfl
  rw [h1, ← List.map_map, List.enum_map_snd]

lemma shuffleKeyed_map_index (chunk : List Char) (ds : List Int) :
    (shuffleKeyed chunk ds).map (fun e => (e.index : Int))
      = (List.range chunk.length).map Int.ofNat := by
  unfold shuffleKeyed
  rw [List.map_map]
  have h1 : ((fun e : ShuffleEntry => (e.index : Int)) ∘
      fun pc : Nat × Char =>
        ({ char := pc.2, index := pc.1,
           shuffled := (pc.1 : Int) + ds.getD pc.1 0 } : ShuffleEntry))
      = Int.ofNat ∘ Prod.fst := rfl
  rw [h1, ← List.map_map, List.enum_map_fst]

lemma shuffleKeyed_length (chunk : List Char) (ds : List Int) :
    (shuffleKeyed chunk ds).length = chunk.length := by
  unfold shuffleKeyed
  rw [List.length_map, List.enum_length]

/-- Claim C2: for every committed chunk and every outcome of the jitter
draws, the multiset of displaced ranks index + readableDelta over the
chunk's slots is exactly the multiset 0..M-1 (a permutation: no
collisions and no gaps), and so is the multiset of natural indices. -/
theorem commitChunk_displaced_rank_bijection (chunk : List Char) (ds : List Int) :
    ((commitChunk chunk ds).map (fun sl => sl.index + sl.readableDelta)).Perm
        ((List.range chunk.length).map Int.ofNat)
  ∧ (commitChunk chunk ds).length = chunk.length
  ∧ ((commitChunk chunk ds).map (fun sl => sl.index)).Perm
        ((List.range chunk.length).map Int.ofNat) := by
  refine ⟨?_, commitChunk_length chunk ds, ?_⟩
  · unfold commitChunk
    have hp : ((slotsOf ((shuffleKeyed chunk ds).insertionSort
          ShuffleEntry.keyLe)).insertionSort CharSlot.indexLe).Perm
        (slotsOf ((shuffleKeyed chunk ds).insertionSort ShuffleEntry.keyLe)) :=
      List.perm_insertionSort _ _
    refine (hp.map _).trans ?_
    rw [slotsOf_map_displaced, List.length_insertionSort, shuffleKeyed_length]
  · unfold commitChunk
    have hp : ((slotsOf ((shuffleKeyed chunk ds).insertionSort
          ShuffleEntry.keyLe)).insertionSort CharSlot.indexLe).Perm
        (slotsOf ((shuffleKeyed chunk ds).insertionSort ShuffleEntry.keyLe)) :=
      List.perm_insertionSort _ _
    refine (hp.map _).trans ?_
    rw [slotsOf_map_index]
    have hq : (((shuffleKeyed chunk ds).insertionSort ShuffleEntry.keyLe).map
        (fun e => (e.index : Int))).Perm
        ((shuffleKeyed chunk ds).map (fun e => (e.index : Int))) :=
      (List.perm_insertionSort _ _).map _
    refine hq.trans ?_
    rw [shuffleKeyed_map_index]

/-!  Claim C9. -/

lemma writeItems_length (buf : List CharSlot) (pos : Nat) (items : List CharSlot) :
    (writeItems buf pos items).length = buf.length := by
  induction items generalizing buf pos with
  | nil => rfl
  | cons x xs ih =>
    show (writeItems (buf.set (pos % buf.length) x) (pos + 1) xs).length = buf.length
    rw [ih, List.length_set]

lemma mod_add_ne {L k : Nat} (pos : Nat) (h0 : 0 < k) (hk : k < L) :
    (pos + k) % L ≠ pos % L := by
  intro h
  have h1 : Nat.ModEq L (pos + k) (pos + 0) := by
    unfold Nat.ModEq
    rw [Nat.add_zero]
    exact h
  have h2 : Nat.ModEq L k 0 := Nat.ModEq.add_left_cancel' pos h1
  have h3 : k % L = 0 % L := h2
  rw [Nat.zero_mod, Nat.mod_eq_of_lt hk] at h3
  omega

lemma writeItems_getD_untouched (items : List CharSlot) :
    ∀ (buf : List CharSlot) (pos r : Nat),
      (∀ j, j < items.length → (pos + j) % buf.length ≠ r) →
      (writeItems buf pos items).getD r createBlankSlot = buf.getD r createBlankSlot := by
  induction items with
  | nil =>
    intro buf pos r _
    rfl
  | cons x xs ih =>
    intro buf pos r h
    show (writeItems (buf.set (pos % buf.length) x) (pos + 1) xs).getD r createBlankSlot = _
    have hlen : (buf.set (pos % buf.length) x).length = buf.length :=
      List.length_set _ _ _
    have h1 : ∀ j, j < xs.length →
        (pos + 1 + j) % (buf.set (pos % buf.length) x).length ≠ r := by
      intro j hj
      rw [hlen, show pos + 1 + j = pos + (j + 1) from by omega]
      exact h (j + 1) (by simp only [List.length_cons]; omega)
    rw [ih _ _ _ h1]
    have hne : pos % buf.length ≠ r := by
      have := h 0 (by simp only [List.length_cons]; omega)
      simpa using this
    simp only [List.getD_eq_getElem?_getD]
    rw [List.getElem?_set_ne hne]

lemma writeItems_getD_read (items : List CharSlot) :
    ∀ (buf : List CharSlot) (pos : Nat), items.length ≤ buf.length →
      ∀ i, i < items.length →
      (writeItems buf pos items).getD ((pos + i) % buf.length) createBlankSlot
        = items.getD i createBlankSlot := by
  induction items with
  | nil =>
    intro buf pos _ i hi
    exact absurd hi (Nat.not_lt_zero i)
  | cons x xs ih =>
    intro buf pos hle i hi
    have hxs : xs.length + 1 ≤ buf.length := by
      simpa using hle
    have hL : 0 < buf.length := by omega
    have hlen : (buf.set (pos % buf.length) x).length = buf.length :=
      List.length_set _ _ _
    match i with
    | 0 =>
      show (writeItems (buf.set (pos % buf.length) x) (pos + 1) xs).getD
        ((pos + 0) % buf.length) createBlankSlot = _
      rw [writeItems_getD_untouched xs _ _ _ ?hunt]
      case hunt =>
        intro j hj
        rw [hlen, Nat.add_zero, show pos + 1 + j = pos + (j + 1) from by omega]
        exact mod_add_ne pos (Nat.succ_pos j) (by omega)
      have hlt : pos % buf.length < buf.length := Nat.mod_lt _ hL
      simp only [Nat.add_zero, List.getD_eq_getElem?_getD]
      rw [List.getElem?_set_self hlt]
      simp
    | Nat.succ j =>
      show (writeItems (buf.set (pos % buf.length) x) (pos + 1) xs).getD
        ((pos + (j + 1)) % buf.length) createBlankSlot = _
      have hstep := ih (buf.set (pos % buf.length) x) (pos + 1)
        (by rw [hlen]; omega) j (by simp only [List.length_cons] at hi; omega)
      rw [hlen] at hstep
      rw [show pos + (j + 1) = pos + 1 + j from by omega, hstep]
      simp

lemma ringGet_setAt_zero {r : RingBuffer} {fill : List CharSlot}
    (hlen : fill.length = r.size) {i : Nat} (hi : i < r.size) :
    (r.setAt 0 fill).get i = fill.getD i createBlankSlot := by
  unfold RingBuffer.setAt RingBuffer.get
  simp only [Nat.add_zero]
  rw [writeItems_length]
  exact writeItems_getD_read fill r.buffer r.start (le_of_eq hlen) i (by omega)

lemma advance_length_of_le {s : TextStreamBuffer} {k : Nat}
    (hg : s.startAt < s.processed.length) (hk : k ≤ s.processed.length - s.startAt) :
    (s.advance k).length = s.length - k := by
  unfold TextStreamBuffer.advance
  rw [if_pos hg]
  unfold compactIfNeeded compactStep TextStreamBuffer.length
  split
  · simp only [List.length_drop, Nat.cast_zero]
    omega
  · simp only []
    omega

/-- Claim C9: after syncFromTextBuffer, with available =
max(0, processed.length - startAt) (Nat subtraction) and ring capacity
N, the ring reads back as all blanks when available = 0, as
N - available leading blanks followed by the available slots in buffer
order when 0 < available < N, and as the first N available slots when
available >= N; the source buffer undergoes exactly
advance(min(available, N)), consuming min(available, N) characters from
its length. -/
theorem syncFromTextBuffer_spec (r : RingBuffer) (tb : TextStreamBuffer)
    (hN : 0 < r.size) :
    (tb.processed.length - tb.startAt = 0 →
       ∀ i, i < r.size → (syncFromTextBuffer r tb).1.get i = createBlankSlot)
  ∧ (0 < tb.processed.length - tb.startAt →
     tb.processed.length - tb.startAt < r.size →
       (∀ i, i < r.size - (tb.processed.length - tb.startAt) →
          (syncFromTextBuffer r tb).1.get i = createBlankSlot)
     ∧ (∀ j, j < tb.processed.length - tb.startAt →
          (syncFromTextBuffer r tb).1.get (r.size - (tb.processed.length - tb.startAt) + j)
            = tb.processed.getD (tb.startAt + j) createBlankSlot))
  ∧ (r.size ≤ tb.processed.length - tb.startAt →
       ∀ i, i < r.size →
         (syncFromTextBuffer r tb).1.get i
           = tb.processed.getD (tb.startAt + i) createBlankSlot)
  ∧ (syncFromTextBuffer r tb).2
      = tb.advance (min (tb.processed.length - tb.startAt) r.size)
  ∧ (syncFromTextBuffer r tb).2.length
      = tb.length - (min (tb.processed.length - tb.startAt) r.size : Nat) := by
  refine ⟨?_, ?_, ?_, rfl, ?_⟩
  · intro h0 i hi
    unfold syncFromTextBuffer
    simp only []
    rw [if_pos h0, ringGet_setAt_zero (by rw [List.length_replicate]) hi]
    simp [List.getD_eq_getElem?_getD, List.getElem?_replicate_of_lt hi]
  · intro h1 h2
    have hdrop : (tb.processed.drop tb.startAt).length
        = tb.processed.length - tb.startAt := List.length_drop _ _
    have hfill : (List.replicate (r.size - (tb.processed.length - tb.startAt))
          createBlankSlot ++
          (tb.processed.drop tb.startAt).take (tb.processed.length - tb.startAt)).length
        = r.size := by
      rw [List.length_append, List.length_replicate, List.length_take, hdrop]
      omega
    constructor
    · intro i hi
      unfold syncFromTextBuffer
      simp only []
      rw [if_neg (by omega : ¬ tb.processed.length - tb.startAt = 0), if_pos h2,
        ringGet_setAt_zero hfill (by omega)]
      simp only [List.getD_eq_getElem?_getD]
      rw [List.getElem?_append_left (by rw [List.length_replicate]; omega)]
      simp [List.getElem?_replicate_of_lt hi]
    · intro j hj
      unfold syncFromTextBuffer
      simp only []
      rw [if_neg (by omega : ¬ tb.processed.length - tb.startAt = 0), if_pos h2,
        ringGet_setAt_zero hfill (by omega)]
      simp only [List.getD_eq_getElem?_getD]
      rw [List.getElem?_append_right (by rw [List.length_replicate]; omega)]
      rw [List.length_replicate,
        show r.size - (tb.processed.length - tb.startAt) + j
          - (r.size - (tb.processed.length - tb.startAt)) = j from by omega]
      rw [List.getElem?_take_of_lt hj, List.getElem?_drop]
  · intro hge i hi
    unfold syncFromTextBuffer
    simp only []
    have hfill : ((tb.processed.drop tb.startAt).take r.size).length = r.size := by
      rw [List.length_take, List.length_drop]
      omega
    rw [if_neg (by omega : ¬ tb.processed.length - tb.startAt = 0),
      if_neg (by omega : ¬ tb.processed.length - tb.startAt < r.size),
      ringGet_setAt_zero hfill (by omega)]
    simp only [List.getD_eq_getElem?_getD]
    rw [List.getElem?_take_of_lt hi, List.getElem?_drop]
  · by_cases h0 : tb.processed.length - tb.startAt = 0
    · have hmin : min (tb.processed.length - tb.startAt) r.size = 0 := by omega
      unfold syncFromTextBuffer
      simp only [hmin]
      unfold TextStreamBuffer.advance
      rw [if_neg (by omega : ¬ tb.startAt < tb.processed.length)]
      simp [hmin]
    · have hg : tb.startAt < tb.processed.length := by omega
      unfold syncFromTextBuffer
      simp only []
      rw [advance_length_of_le hg (by omega)]

/-- Claim C9, witness: priming a 3-slot ring from a 4-slot buffer places
the first committed slot at window position 0. -/
theorem syncFromTextBuffer_spec_w :
    (syncFromTextBuffer { buffer := List.replicate 3 createBlankSlot, start := 0 }
        (mkTextStreamBuffer ("ABCD".toList) 4 zeroRand)).1.get 0
      = { index := 0, char := 'A', readableDelta := 0 } := by
  have h := (syncFromTextBuffer_spec
      { buffer := List.replicate 3 createBlankSlot, start := 0 }
      (mkTextStreamBuffer ("ABCD".toList) 4 zeroRand) (by decide)).2.2.1
      (by decide) 0 (by decide)
  exact h.trans (by decide)

/-!  Claim C10. -/

lemma length_le_card_Ico {P : List Nat} (hnd : P.Nodup) {lo hi : Nat}
    (h : ∀ x ∈ P, lo ≤ x ∧ x < hi) : P.length ≤ hi - lo := by
  classical
  have hsub : P.toFinset ⊆ Finset.Ico lo hi := by
    intro x hx
    rw [Finset.mem_Ico]
    exact h x (List.mem_toFinset.mp hx)
  have hc := Finset.card_le_card hsub
  rwa [List.toFinset_card_of_nodup hnd, Nat.card_Ico] at hc

lemma getD_jitter_bound {ds : List Int} {R : Nat} (hds : ∀ d ∈ ds, d.natAbs ≤ R)
    (p : Nat) : (ds.getD p 0).natAbs ≤ R := by
  by_cases h : p < ds.length
  · rw [List.getD_eq_getElem?_getD, List.getElem?_eq_getElem h]
    exact hds _ (List.getElem_mem h)
  · rw [List.getD_eq_getElem?_getD, List.getElem?_eq_none (by omega)]
    simp

lemma shuffleKeyed_map_index_nat (chunk : List Char) (ds : List Int) :
    (shuffleKeyed chunk ds).map ShuffleEntry.index = List.range chunk.length := by
  unfold shuffleKeyed
  rw [List.map_map]
  have h1 : (ShuffleEntry.index ∘ fun pc : Nat × Char =>
      ({ char := pc.2, index := pc.1, shuffled := (pc.1 : Int) + ds.getD pc.1 0 } :
        ShuffleEntry)) = Prod.fst := rfl
  rw [h1, List.enum_map_fst]

lemma mem_shuffleKeyed_shuffled {chunk : List Char} {ds : List Int} {e : ShuffleEntry}
    (he : e ∈ shuffleKeyed chunk ds) :
    e.shuffled = (e.index : Int) + ds.getD e.index 0 := by
  unfold shuffleKeyed at he
  rcases List.mem_map.mp he with ⟨pc, _, rfl⟩
  rfl

lemma rank_close_to_index {S : List ShuffleEntry} {M R : Nat}
    (hsorted : List.Sorted ShuffleEntry.keyLe S)
    (hnd : (S.map ShuffleEntry.index).Nodup)
    (hlen : S.length = M)
    (hidx : ∀ e ∈ S, e.index < M)
    (hkey : ∀ e ∈ S, (e.shuffled - (e.index : Int)).natAbs ≤ R)
    {q : Nat} (hq : q < S.length) :
    ((q : Int) - (S[q].index : Int)).natAbs ≤ 2 * R := by
  have hub : q ≤ S[q].index + 2 * R := by
    have hmono : ∀ i, ∀ hi : i < S.length, i ≤ q → S[i].index < S[q].index + 2 * R + 1 := by
      intro i hi hiq
      rcases Nat.lt_or_ge i q with hlt | hge
      · have hrel : ShuffleEntry.keyLe (S.get ⟨i, hi⟩) (S.get ⟨q, hq⟩) :=
          hsorted.rel_get_of_lt (Fin.mk_lt_mk.mpr hlt)
        have hle : S[i].shuffled ≤ S[q].shuffled := by
          simpa [List.get_eq_getElem] using hrel
        have hk1 := hkey _ (List.getElem_mem hi)
        have hk2 := hkey _ (List.getElem_mem hq)
        omega
      · have hieq : i = q := by omega
        subst hieq
        omega
    have hsub : ((S.take (q + 1)).map ShuffleEntry.index).Sublist
        (S.map ShuffleEntry.index) := (List.take_sublist _ _).map _
    have hnd2 := List.Nodup.sublist hsub hnd
    have hlen2 : ((S.take (q + 1)).map ShuffleEntry.index).length = q + 1 := by
      rw [List.length_map, List.length_take]
      omega
    have hb : ∀ x ∈ (S.take (q + 1)).map ShuffleEntry.index,
        0 ≤ x ∧ x < S[q].index + 2 * R + 1 := by
      intro x hx
      rcases List.mem_map.mp hx with ⟨e, he, rfl⟩
      rcases List.mem_iff_getElem?.mp he with ⟨i, hi⟩
      have hilt : i < q + 1 := by
        by_contra hcon
        rw [List.getElem?_eq_none (by rw [List.length_take]; omega)] at hi
        exact Option.noConfusion hi
      rw [List.getElem?_take_of_lt hilt] at hi
      have hiS : i < S.length := by
        by_contra hcon
        rw [List.getElem?_eq_none (by omega)] at hi
        exact Option.noConfusion hi
      rw [List.getElem?_eq_getElem hiS] at hi
      have he2 : e = S[i] := (Option.some.inj hi).symm
      subst he2
      exact ⟨Nat.zero_le _, hmono i hiS (by omega)⟩
    have hcount := length_le_card_Ico hnd2 hb
    rw [hlen2, Nat.sub_zero] at hcount
    omega
  have hlb : S[q].index ≤ q + 2 * R := by
    have hmono : ∀ i, ∀ hi : i < S.length, q ≤ i → S[q].index ≤ S[i].index + 2 * R := by
      intro i hi hqi
      rcases Nat.lt_or_ge q i with hlt | hge
      · have hrel : ShuffleEntry.keyLe (S.get ⟨q, hq⟩) (S.get ⟨i, hi⟩) :=
          hsorted.rel_get_of_lt (Fin.mk_lt_mk.mpr hlt)
        have hle : S[q].shuffled ≤ S[i].shuffled := by
          simpa [List.get_eq_getElem] using hrel
        have hk1 := hkey _ (List.getElem_mem hi)
        have hk2 := hkey _ (List.getElem_mem hq)
        omega
      · have hieq : i = q := by omega
        subst hieq
        omega
    have hsub : ((S.drop q).map ShuffleEntry.index).Sublist
        (S.map ShuffleEntry.index) := (List.drop_sublist _ _).map _
    have hnd2 := List.Nodup.sublist hsub hnd
    have hlen2 : ((S.drop q).map ShuffleEntry.index).length = S.length - q := by
      rw [List.length_map, List.length_drop]
    have hb : ∀ x ∈ (S.drop q).map ShuffleEntry.index,
        S[q].index - 2 * R ≤ x ∧ x < M := by
      intro x hx
      rcases List.mem_map.mp hx with ⟨e, he, rfl⟩
      rcases List.mem_iff_getElem?.mp he with ⟨j, hj⟩
      rw [List.getElem?_drop] at hj
      have hjS : q + j < S.length := by
        by_contra hcon
        rw [List.getElem?_eq_none (by omega)] at hj
        exact Option.noConfusion hj
      rw [List.getElem?_eq_getElem hjS] at hj
      have he2 : e = S[q + j] := (Option.some.inj hj).symm
      subst he2
      refine ⟨?_, hidx _ (List.getElem_mem hjS)⟩
      have := hmono (q + j) hjS (by omega)
      omega
    have hcount := length_le_card_Ico hnd2 hb
    rw [hlen2] at hcount
    have hpM : S[q].index < M := hidx _ (List.getElem_mem hq)
    omega
  omega

lemma slotsOf_delta_bounded {S : List ShuffleEntry} {M R : Nat}
    (hsorted : List.Sorted ShuffleEntry.keyLe S)
    (hnd : (S.map ShuffleEntry.index).Nodup)
    (hlen : S.length = M)
    (hidx : ∀ e ∈ S, e.index < M)
    (hkey : ∀ e ∈ S, (e.shuffled - (e.index : Int)).natAbs ≤ R) :
    ∀ slot ∈ slotsOf S, slot.readableDelta.natAbs ≤ 2 * R := by
  intro slot hmem
  unfold slotsOf at hmem
  rcases List.mem_map.mp hmem with ⟨qe, hqe, rfl⟩
  rcases List.mem_iff_getElem?.mp hqe with ⟨i, hi⟩
  rw [List.getElem?_enum] at hi
  cases hSi : S[i]? with
  | none =>
    rw [hSi] at hi
    exact Option.noConfusion hi
  | some e =>
    rw [hSi] at hi
    have hqe2 : qe = (i, e) := by
      simpa using hi.symm
    subst hqe2
    have hiS : i < S.length := by
      by_contra hcon
      rw [List.getElem?_eq_none (by omega)] at hSi
      exact Option.noConfusion hSi
    have heq : e = S[i] := by
      rw [List.getElem?_eq_getElem hiS] at hSi
      exact (Option.some.inj hSi).symm
    subst heq
    show (((i : Int) - (S[i].index : Int)).natAbs) ≤ 2 * R
    exact rank_close_to_index hsorted hnd hlen hidx hkey hiS

/-- Claim C10: for every chunk and every outcome of the jitter draws
within the radius (each drawn offset d satisfies the natural-absolute
bound d.natAbs at most R, which holds for the code's draws
Math.floor(Math.random() * R * 2) - R, whose values lie in the interval
from -R to R - 1), every produced CharSlot has a readableDelta of
magnitude at most 2 * R: a character's shuffled display rank never lies
more than twice the shuffle radius away from its natural position. -/
theorem commitChunk_delta_bounded (chunk : List Char) (ds : List Int) (R : Nat)
    (hds : ∀ d ∈ ds, d.natAbs ≤ R) :
    ∀ slot ∈ commitChunk chunk ds, slot.readableDelta.natAbs ≤ 2 * R := by
  intro slot hslot
  unfold commitChunk at hslot
  have hmem : slot ∈ slotsOf ((shuffleKeyed chunk ds).insertionSort ShuffleEntry.keyLe) :=
    (List.perm_insertionSort _ _).subset hslot
  have hperm : ((shuffleKeyed chunk ds).insertionSort ShuffleEntry.keyLe).Perm
      (shuffleKeyed chunk ds) := List.perm_insertionSort _ _
  refine slotsOf_delta_bounded (M := chunk.length)
    (List.sorted_insertionSort ShuffleEntry.keyLe _) ?_ ?_ ?_ ?_ slot hmem
  · rw [(hperm.map ShuffleEntry.index).nodup_iff, shuffleKeyed_map_index_nat]
    exact List.nodup_range _
  · rw [List.length_insertionSort, shuffleKeyed_length]
  · intro e he
    have hek : e ∈ shuffleKeyed chunk ds := hperm.subset he
    have : e.index ∈ (shuffleKeyed chunk ds).map ShuffleEntry.index :=
      List.mem_map_of_mem _ hek
    rw [shuffleKeyed_map_index_nat] at this
    exact List.mem_range.mp this
  · intro e he
    have hek : e ∈ shuffleKeyed chunk ds := hperm.subset he
    rw [mem_shuffleKeyed_shuffled hek]
    have hgd := getD_jitter_bound hds e.index
    omega

/-- Claim C10, witness: a concrete two-character chunk with jitters of
magnitude one; the first produced slot's delta is bounded by two. -/
theorem commitChunk_delta_bounded_w :
    ((commitChunk (['A', 'B']) ([1, -1])).getD 0 createBlankSlot).readableDelta.natAbs
      ≤ 2 * 1 :=
  commitChunk_delta_bounded ['A', 'B'] [1, -1] 1 (by decide) _ (by decide)

end ThreadSpec
